import Mathlib

/-!
Verification of the tivilsta whitelisting core (`src/lib.rs`, `src/utils.rs`)
against its natural-language specification.

Strings are embedded as `List Char` (Rust `String` over the ASCII/Unicode
code points appearing in rules and records).  Rust `HashMap<String, HashSet<String>>`
is embedded as an association list of buckets; a `HashSet` is embedded as a
duplicate-free list in insertion order (Rust's iteration order is arbitrary;
the single place where iteration order is observable — the `peekable()` probe
of an `ends` bucket in `Ruler::is_whitelisted` — is modelled by insertion
order, which is one of the orders the real table can produce).

External collaborators of the core (the `urlparse` crate, the `fancy_regex`
engine, and the remotely fetched IANA/PSL extension lists) are kept abstract
in an `Env` record; concrete instances are only used to produce closed
witnesses and counterexamples on plain-hostname inputs, where the repository's
own tests pin the external behaviour.
-/

namespace Tivilsta

/-- Embedded Rust string: the list of its characters. -/
abbrev Str := List Char

/-- Converts a Lean string literal to an embedded string. -/
def str (s : String) : Str := s.data

/-- Rust `str::trim` (leading part): drop leading whitespace. -/
def trimLeft (s : Str) : Str := s.dropWhile Char.isWhitespace

/-- Rust `str::trim`: drop leading and trailing whitespace. -/
def trim (s : Str) : Str :=
  ((trimLeft s).reverse.dropWhile Char.isWhitespace).reverse

/-- Rust `str::contains(pat)` for a multi-character pattern. -/
def containsSeq (pat : Str) : Str → Bool
  | [] => pat.isPrefixOf []
  | c :: t => pat.isPrefixOf (c :: t) || containsSeq pat t

/-- Rust `s.split(pat).next().unwrap()`: the part of `s` before the first
occurrence of `pat` (all of `s` when `pat` does not occur). -/
def takeBefore (pat : Str) : Str → Str
  | [] => []
  | c :: t => if pat.isPrefixOf (c :: t) then [] else c :: takeBefore pat t

/-- The part of `s` after the first occurrence of `pat` (empty when `pat`
does not occur). -/
def afterSeq (pat : Str) : Str → Str
  | [] => []
  | c :: t => if pat.isPrefixOf (c :: t) then (c :: t).drop pat.length else afterSeq pat t

/-- Rust `str::replace(pat, "")`: remove every non-overlapping occurrence of
`pat`, scanning left to right.  The call sites in `Ruler::pull_regex` always
pass a pattern containing `'|'`, hence non-empty; an empty pattern is returned
unchanged here (that case is unreachable from the embedded code). -/
def replaceAll (pat : Str) : Str → Str
  | [] => []
  | c :: t =>
    if pat ≠ [] ∧ pat.isPrefixOf (c :: t)
    then replaceAll pat (List.drop (pat.length - 1) t)
    else c :: replaceAll pat t
termination_by s => s.length
decreasing_by
  all_goals simp_wf
  all_goals omega

/-- The external collaborators of the core, kept abstract: the `urlparse`
crate (authority and path of a parsed URL-like string), the `fancy_regex`
engine (`is_match` of a compiled pattern on an input, and whether a pattern
source compiles), and the remotely fetched IANA + PSL extension lists
returned by `Ruler::extensions`. -/
structure Env where
  upNetloc : Str → Str
  upPath : Str → Str
  rmatch : Str → Str → Bool
  compiles : Str → Bool
  exts : List Str

/-- Bucketed map `HashMap<String, HashSet<String>>` as an association list. -/
abbrev BMap := List (Str × List Str)

/-- Bucket lookup (`HashMap::entry` observed as `Occupied`/`Vacant`). -/
def lookupB : BMap → Str → Option (List Str)
  | [], _ => none
  | (k1, b) :: t, k => if k1 = k then some b else lookupB t k

/-- `HashSet::insert`: a no-op when the element is already present, else the
element is added (modelled at the end, in insertion order). -/
def insertSet (b : List Str) (v : Str) : List Str :=
  if v ∈ b then b else b ++ [v]

/-- `HashSet::remove`: drop the element when present. -/
def eraseSet : List Str → Str → List Str
  | [], _ => []
  | x :: t, v => if x = v then t else x :: eraseSet t v

/-- `entry(k)`: `Occupied` inserts into the existing bucket, `Vacant` creates
a fresh one-element bucket (Rust table order is arbitrary; new keys are
modelled at the end). -/
def insertB : BMap → Str → Str → BMap
  | [], k, v => [(k, [v])]
  | (k1, b) :: t, k, v =>
    if k1 = k then (k1, insertSet b v) :: t else (k1, b) :: insertB t k v

/-- `entry(k)`: `Occupied` removes from the existing bucket (which may become
empty but keeps its key, as in the source), `Vacant` does nothing. -/
def removeB : BMap → Str → Str → BMap
  | [], _, _ => []
  | (k1, b) :: t, k, v =>
    if k1 = k then (k1, eraseSet b v) :: t else (k1, b) :: removeB t k v

/-- The `Ruler` state (`src/lib.rs`).  The compiled regex is embedded by the
source string it was compiled from (`Regex::as_str`), which the source keeps
in sync with the `regex` disjunction; the run-time `tmps` bookkeeping of
downloaded files is I/O-only and not part of the matching state. -/
structure Ruler where
  strict : BMap
  ends : BMap
  present : BMap
  regex : Str
  compiledRegex : Str
  handle_complement : Bool
  extensions : List Str
deriving DecidableEq, Repr

/-- `Ruler::new`: empty indices, empty (compiled) regex, fixed complement
flag, no cached extensions. -/
def Ruler.new (handle_complement : Bool) : Ruler :=
  { strict := [], ends := [], present := [], regex := [], compiledRegex := []
    handle_complement := handle_complement, extensions := [] }

/-- `Ruler::reduce`: strip one leading `www.` when present. -/
def reduce (element : Str) : Str :=
  if (str ("www.")).isPrefixOf element then element.drop 4 else element

/-- `Ruler::search_keys`: first four characters, and last three characters
(taken through a double reversal exactly as in the source). -/
def search_keys (record : Str) : Str × Str :=
  (record.take 4, (record.reverse.take 3).reverse)

/-- `Ruler::push_strict`: insert the record into the `strict` bucket keyed by
the first four characters of its reduced form. -/
def push_strict (r : Ruler) (record : Str) : Ruler :=
  { r with strict := insertB r.strict (search_keys (reduce record)).1 record }

/-- `Ruler::pull_strict`. -/
def pull_strict (r : Ruler) (record : Str) : Ruler :=
  { r with strict := removeB r.strict (search_keys (reduce record)).1 record }

/-- `Ruler::push_present`. -/
def push_present (r : Ruler) (record : Str) : Ruler :=
  { r with present := insertB r.present (search_keys (reduce record)).1 record }

/-- `Ruler::pull_present`. -/
def pull_present (r : Ruler) (record : Str) : Ruler :=
  { r with present := removeB r.present (search_keys (reduce record)).1 record }

/-- `Ruler::push_ends`: keyed by the last three characters of the reduced
record. -/
def push_ends (r : Ruler) (record : Str) : Ruler :=
  { r with ends := insertB r.ends (search_keys (reduce record)).2 record }

/-- `Ruler::pull_ends`. -/
def pull_ends (r : Ruler) (record : Str) : Ruler :=
  { r with ends := removeB r.ends (search_keys (reduce record)).2 record }

/-- `Ruler::push_regex` (success path): append the pattern to the disjunction
(with a `|` separator iff the string is non-empty) and recompile.  The source
recompiles with `Regex::new(..).unwrap()`, which presumes compilation
succeeds; the failing case is embedded separately in `push_regex_checked`. -/
def push_regex (r : Ruler) (record : Str) : Ruler :=
  let newRegex := if r.regex = [] then r.regex ++ record else r.regex ++ '|' :: record
  { r with regex := newRegex, compiledRegex := newRegex }

/-- `Ruler::push_regex` with the external compilation made explicit:
`Regex::new(&self.regex).unwrap()` panics (embedded as `none`) when the
appended disjunction does not compile — the source has no rollback branch. -/
def push_regex_checked (E : Env) (r : Ruler) (record : Str) : Option Ruler :=
  let newRegex := if r.regex = [] then r.regex ++ record else r.regex ++ '|' :: record
  if E.compiles newRegex
  then some { r with regex := newRegex, compiledRegex := newRegex }
  else none

/-- `Ruler::pull_regex`: clear the string when it starts and ends with the
pattern; else `replace` (all occurrences) of `record ++ "|"` when the string
starts with the pattern; else `replace` of `"|" ++ record`.  Recompile. -/
def pull_regex (r : Ruler) (record : Str) : Ruler :=
  let newRegex :=
    if record.isPrefixOf r.regex ∧ record.isSuffixOf r.regex then []
    else if record.isPrefixOf r.regex then replaceAll (record ++ ['|']) r.regex
    else replaceAll ('|' :: record) r.regex
  { r with regex := newRegex, compiledRegex := newRegex }

/-- The prefix test of `Ruler::parse_all`/`unparse_all`: the source checks
the exact strings `ALL ` and `all ` (and no other case variant). -/
def is_all_line (line : Str) : Bool :=
  (str ("ALL ")).isPrefixOf line || (str ("all ")).isPrefixOf line

/-- The prefix test of `Ruler::parse_regex`/`unparse_regex`. -/
def is_reg_line (line : Str) : Bool :=
  (str ("REG ")).isPrefixOf line || (str ("reg ")).isPrefixOf line

/-- The prefix test of `Ruler::parse_root_zone_db`/`unparse_root_zone_db`. -/
def is_rzd_line (line : Str) : Bool :=
  (str ("RZD ")).isPrefixOf line || (str ("rzd ")).isPrefixOf line

/-- The body of `Ruler::parse_all` once the trimmed remainder starts with a
dot: when the remainder has more than one dot, push the remainder without the
dot as a strict rule (prefixing its `www.` complement first when the flag is
set); always push the dotted remainder as an `ends` rule. -/
def parse_all_dotted (r : Ruler) (record : Str) : Ruler :=
  let r1 :=
    if record.count '.' > 1 then
      let r0 := if r.handle_complement
                then push_strict r (str ("www.") ++ record.drop 1) else r
      push_strict r0 (record.drop 1)
    else r
  push_ends r1 record

/-- The handled branch of `Ruler::parse_all`: the trimmed remainder is
processed; when it does not start with a dot the source recurses through
`self.parse("ALL ." ++ record)`, which re-enters `parse_all` and lands in the
dotted branch with `trim ('.' :: record)` — that single recursion step is
inlined here. -/
def parse_all_body (r : Ruler) (line : Str) : Ruler :=
  let record := trim (line.drop 4)
  if record.head? = some '.' then parse_all_dotted r record
  else parse_all_dotted r (trim ('.' :: record))

/-- `Ruler::parse_all`: `none` when the line carries neither the `ALL ` nor
the `all ` prefix (the source then returns `false` and `parse` tries the
next classifier). -/
def parse_all (r : Ruler) (line : Str) : Option Ruler :=
  if is_all_line line then some (parse_all_body r line) else none

/-- `Ruler::unparse_all`: mirror of `parse_all` with pulls, with the same
inlined recursion through `self.unparse("ALL ." ++ record)`. -/
def unparse_all_dotted (r : Ruler) (record : Str) : Ruler :=
  let r1 :=
    if record.count '.' > 1 then
      let r0 := if r.handle_complement
                then pull_strict r (str ("www.") ++ record.drop 1) else r
      pull_strict r0 (record.drop 1)
    else r
  pull_ends r1 record

/-- `Ruler::unparse_all`. -/
def unparse_all (r : Ruler) (line : Str) : Option Ruler :=
  if is_all_line line then
    let record := trim (line.drop 4)
    if record.head? = some '.' then some (unparse_all_dotted r record)
    else some (unparse_all_dotted r (trim ('.' :: record)))
  else none

/-- `Ruler::parse_regex`: `none` without the `REG `/`reg ` prefix, else push
the trimmed remainder. -/
def parse_regex (r : Ruler) (line : Str) : Option Ruler :=
  if is_reg_line line then some (push_regex r (trim (line.drop 4))) else none

/-- `Ruler::unparse_regex`. -/
def unparse_regex (r : Ruler) (line : Str) : Option Ruler :=
  if is_reg_line line then some (pull_regex r (trim (line.drop 4))) else none

/-- The record of an `RZD ` line: the trimmed remainder, with a leading
`www.` stripped (and re-trimmed) under the complement flag. -/
def rzd_record (hc : Bool) (line : Str) : Str :=
  let record0 := trim (line.drop 4)
  if hc && (str ("www.")).isPrefixOf record0 then trim (record0.drop 4) else record0

/-- One iteration of the `parse_root_zone_db` loop: push the record dotted
with the extension, and its `www.` complement when the flag is set. -/
def rzd_step (record : Str) (acc : Ruler) (ext : Str) : Ruler :=
  let acc1 := push_present acc (record ++ '.' :: ext)
  if acc.handle_complement
  then push_present acc1 (str ("www.") ++ record ++ '.' :: ext)
  else acc1

/-- The handled branch of `Ruler::parse_root_zone_db`: load the extension
list lazily into the settings when empty, then fold the push loop over (a
clone of) the cached extensions. -/
def rzd_body (E : Env) (r : Ruler) (record : Str) : Ruler :=
  let r1 := if r.extensions = [] then { r with extensions := E.exts } else r
  r1.extensions.foldl (rzd_step record) r1

/-- `Ruler::parse_root_zone_db`: `none` without the `RZD `/`rzd ` prefix. -/
def parse_root_zone_db (E : Env) (r : Ruler) (line : Str) : Option Ruler :=
  if is_rzd_line line
  then some (rzd_body E r (rzd_record r.handle_complement line))
  else none

/-- One iteration of the `unparse_root_zone_db` loop. -/
def rzd_unstep (record : Str) (acc : Ruler) (ext : Str) : Ruler :=
  let acc1 := pull_present acc (record ++ '.' :: ext)
  if acc.handle_complement
  then pull_present acc1 (str ("www.") ++ record ++ '.' :: ext)
  else acc1

/-- `Ruler::unparse_root_zone_db`. -/
def unparse_root_zone_db (E : Env) (r : Ruler) (line : Str) : Option Ruler :=
  if is_rzd_line line then
    let record := rzd_record r.handle_complement line
    let r1 := if r.extensions = [] then { r with extensions := E.exts } else r
    some (r1.extensions.foldl (rzd_unstep record) r1)
  else none

/-- `Ruler::parse_plain`: under the complement flag a leading `www.` of the
line is stripped (and the remainder trimmed); the record is pushed strict,
and under the flag its `www.` complement as well. -/
def parse_plain (r : Ruler) (line : Str) : Ruler :=
  let record := if r.handle_complement && (str ("www.")).isPrefixOf line
                then trim (line.drop 4) else line
  let r1 := push_strict r record
  if r.handle_complement then push_strict r1 (str ("www.") ++ record) else r1

/-- `Ruler::unparse_plain`: the record is the *reduced* line (unconditionally,
unlike `parse_plain` which strips `www.` only under the complement flag); it
is pulled, and under the flag its `www.` complement as well. -/
def unparse_plain (r : Ruler) (line : Str) : Ruler :=
  let record := reduce line
  let r1 := pull_strict r record
  if r.handle_complement then pull_strict r1 (str ("www.") ++ record) else r1

/-- `Ruler::parse`: discard empty and `#` lines, then try the classifiers in
source order (`parse_all`, `parse_regex`, `parse_root_zone_db`,
`parse_plain`). -/
def parse (E : Env) (r : Ruler) (line : Str) : Ruler :=
  if line = [] ∨ line.head? = some '#' then r
  else
    match parse_all r line with
    | some r1 => r1
    | none =>
      match parse_regex r line with
      | some r1 => r1
      | none =>
        match parse_root_zone_db E r line with
        | some r1 => r1
        | none => parse_plain r line

/-- `Ruler::parse_vec`: fold `parse` over the lines. -/
def parse_vec (E : Env) (r : Ruler) (lines : List Str) : Ruler :=
  lines.foldl (parse E) r

/-- `Ruler::unparse`. -/
def unparse (E : Env) (r : Ruler) (line : Str) : Ruler :=
  if line = [] ∨ line.head? = some '#' then r
  else
    match unparse_all r line with
    | some r1 => r1
    | none =>
      match unparse_regex r line with
      | some r1 => r1
      | none =>
        match unparse_root_zone_db E r line with
        | some r1 => r1
        | none => unparse_plain r line

/-- `utils::extract_netloc`: take the parsed authority when non-empty, else
the parsed path when non-empty, else the data itself; then truncate at the
first `//` and at the first `/`. -/
def extract_netloc (E : Env) (data : Str) : Str :=
  let netloc := E.upNetloc data
  let path := E.upPath data
  let r1 := if netloc = [] ∧ path ≠ [] then path
            else if netloc ≠ [] then netloc
            else data
  let r2 := if containsSeq (str ("//")) r1 then takeBefore (str ("//")) r1 else r1
  if r2.contains '/' then r2.takeWhile (fun c => c ≠ '/') else r2

/-- The bucket behind a key, with a missing key read as the empty bucket
(spec §3 invariant 1: missing and empty buckets are indistinguishable to
membership). -/
def bucketOf (m : BMap) (k : Str) : List Str := (lookupB m k).getD []

/-- One `entry` probe of `Ruler::is_whitelisted`: `Occupied` runs the test on
the bucket, `Vacant` yields `false`. -/
def probe (m : BMap) (k : Str) (test : List Str → Bool) : Bool :=
  match lookupB m k with
  | some bucket => test bucket
  | none => false

/-- One `entry` probe with the state threading of the `&mut self` receiver
made explicit: the `Occupied` arm only reads its bucket and the `Vacant` arm
binds the entry to `_`, so both arms leave the map behind as it was. -/
def entry_probe (m : BMap) (k : Str) (test : List Str → Bool) : Bool × BMap :=
  match lookupB m k with
  | some bucket => (test bucket, m)
  | none => (false, m)

/-- The `ends` bucket test of `Ruler::is_whitelisted`: the suffix test is
mapped over the bucket, but only `peek()` of the resulting iterator is read —
i.e. only the first element of the bucket's iteration is ever tested. -/
def ends_test (fline : Str) (bucket : List Str) : Bool :=
  ((bucket.map (fun x => x.isSuffixOf fline)).head?).getD false

/-- `Ruler::is_whitelisted`: reject empty and `#` lines; extract the netloc;
compute both search keys on its reduced form; then probe `strict`, `present`,
`ends` and finally the regex.  The `strict`/`present` probes test membership
of the *unreduced* netloc. -/
def is_whitelisted (E : Env) (r : Ruler) (line : Str) : Bool :=
  if line = [] ∨ line.head? = some '#' then false
  else
    let fline := extract_netloc E line
    let keys := search_keys (reduce fline)
    let m1 := probe r.strict keys.1 (fun bucket => bucket.contains fline)
    if m1 then true
    else
      let m2 := probe r.present keys.1 (fun bucket => bucket.contains fline)
      if m2 then true
      else
        let m3 := probe r.ends keys.2 (ends_test fline)
        if m3 then true
        else decide (r.regex ≠ []) && E.rmatch r.compiledRegex fline

/-- `Ruler::is_whitelisted` with the state threading of the Rust `&mut self`
receiver made explicit: each `entry` probe yields the matching result
together with the map it leaves behind, and the Ruler carried out of the
call is reassembled from those maps. -/
def is_whitelisted_st (E : Env) (r : Ruler) (line : Str) : Bool × Ruler :=
  if line = [] ∨ line.head? = some '#' then (false, r)
  else
    let fline := extract_netloc E line
    let keys := search_keys (reduce fline)
    let p1 := entry_probe r.strict keys.1 (fun bucket => bucket.contains fline)
    let r1 : Ruler := { r with strict := p1.2 }
    if p1.1 then (true, r1)
    else
      let p2 := entry_probe r1.present keys.1 (fun bucket => bucket.contains fline)
      let r2 : Ruler := { r1 with present := p2.2 }
      if p2.1 then (true, r2)
      else
        let p3 := entry_probe r2.ends keys.2 (ends_test fline)
        let r3 : Ruler := { r2 with ends := p3.2 }
        if p3.1 then (true, r3)
        else (decide (r3.regex ≠ []) && E.rmatch r3.compiledRegex fline, r3)

/-- Modelled from the spec: the authority component produced by the external
`urlparse` crate (spec §4.1, "if `s` parses with a non-empty authority,
return it").  An authority is present after a `://` (the scheme may be empty)
or when the string starts with `//`; a plain hostname has an empty authority
and parses as a pure path.  Only plain-hostname and simple-URL shapes are
exercised by the witnesses below, matching the crate behaviour pinned by the
repository's `extract_netloc` tests. -/
def upNetloc0 (s : Str) : Str :=
  if containsSeq (str ("://")) s
  then (afterSeq (str ("://")) s).takeWhile (fun c => c ≠ '/')
  else if (str ("//")).isPrefixOf s
  then (s.drop 2).takeWhile (fun c => c ≠ '/')
  else []

/-- Modelled from the spec: the path component produced by the external
`urlparse` crate — the remainder after the authority, or the whole string
when no authority is present. -/
def upPath0 (s : Str) : Str :=
  if containsSeq (str ("://")) s
  then (afterSeq (str ("://")) s).dropWhile (fun c => c ≠ '/')
  else if (str ("//")).isPrefixOf s
  then (s.drop 2).dropWhile (fun c => c ≠ '/')
  else s

/-- A concrete environment for closed witnesses: the modelled `urlparse`, a
regex engine whose compiled patterns never match (all closed statements below
only query rulers whose regex step short-circuits on an empty disjunction),
compilation that always succeeds, and a two-element extension list. -/
def E0 : Env :=
  { upNetloc := upNetloc0, upPath := upPath0,
    rmatch := fun _ _ => false, compiles := fun _ => true,
    exts := [str ("com"), str ("net")] }

/-- A concrete environment whose regex engine rejects the lone pattern `(`
(which `fancy_regex` fails to compile) and accepts everything else. -/
def EC : Env :=
  { E0 with compiles := fun s => decide (s ≠ str ("(")) }

/-! ### Supporting lemmas -/

theorem str_www_cons (s : Str) : str ("www.") ++ s = 'w' :: 'w' :: 'w' :: '.' :: s := rfl

theorem www_prefix_append (s : Str) :
    (str ("www.")).isPrefixOf (str ("www.") ++ s) = true := by
  show List.isPrefixOf ['w', 'w', 'w', '.'] ('w' :: 'w' :: 'w' :: '.' :: s) = true
  simp [List.isPrefixOf]

theorem drop4_www (s : Str) : (str ("www.") ++ s).drop 4 = s := rfl

theorem reduce_www (s : Str) : reduce (str ("www.") ++ s) = s := by
  simp [reduce, www_prefix_append, drop4_www]

theorem reduce_not_www (s : Str) (h : (str ("www.")).isPrefixOf s = false) :
    reduce s = s := by
  simp [reduce, h]

theorem mem_insertSet_iff (b : List Str) (v y : Str) :
    y ∈ insertSet b v ↔ y ∈ b ∨ y = v := by
  unfold insertSet
  split
  · rename_i hv
    constructor
    · exact fun h => Or.inl h
    · rintro (h | rfl) <;> [exact h; exact hv]
  · simp

theorem insertSet_of_mem (b : List Str) (v : Str) (h : v ∈ b) :
    insertSet b v = b := by
  simp [insertSet, h]

theorem lookupB_cons_self (k : Str) (b : List Str) (t : BMap) :
    lookupB ((k, b) :: t) k = some b := by
  simp [lookupB]

theorem lookupB_cons_ne (k1 : Str) (b : List Str) (t : BMap) (k : Str)
    (h : k1 ≠ k) : lookupB ((k1, b) :: t) k = lookupB t k := by
  simp [lookupB, h]

theorem bucketOf_cons_ne (k1 : Str) (b : List Str) (t : BMap) (k : Str)
    (h : k1 ≠ k) : bucketOf ((k1, b) :: t) k = bucketOf t k := by
  simp [bucketOf, lookupB_cons_ne k1 b t k h]

theorem lookupB_insertB_self (m : BMap) (k v : Str) :
    lookupB (insertB m k v) k = some (insertSet (bucketOf m k) v) := by
  induction m with
  | nil => simp [insertB, lookupB, bucketOf, insertSet]
  | cons e t ih =>
    obtain ⟨k1, b⟩ := e
    by_cases h : k1 = k
    · subst h
      simp [insertB, lookupB_cons_self, bucketOf]
    · simp only [insertB, if_neg h, lookupB_cons_ne k1 _ _ k h,
        bucketOf_cons_ne k1 b t k h]
      exact ih

theorem lookupB_insertB_ne (m : BMap) (k v k2 : Str) (h : k2 ≠ k) :
    lookupB (insertB m k v) k2 = lookupB m k2 := by
  induction m with
  | nil =>
    simp only [insertB, lookupB]
    rw [if_neg (fun hh => h hh.symm)]
  | cons e t ih =>
    obtain ⟨k1, b⟩ := e
    by_cases h1 : k1 = k
    · subst h1
      have hne : k1 ≠ k2 := fun hh => h hh.symm
      simp [insertB, lookupB_cons_ne _ _ _ _ hne]
    · simp only [insertB, if_neg h1]
      by_cases h2 : k1 = k2
      · subst h2
        rw [lookupB_cons_self, lookupB_cons_self]
      · rw [lookupB_cons_ne _ _ _ _ h2, lookupB_cons_ne _ _ _ _ h2, ih]

theorem insertB_of_mem (m : BMap) (k v : Str) (h : v ∈ bucketOf m k) :
    insertB m k v = m := by
  induction m with
  | nil => simp [bucketOf, lookupB] at h
  | cons e t ih =>
    obtain ⟨k1, b⟩ := e
    by_cases h1 : k1 = k
    · subst h1
      simp [bucketOf, lookupB] at h
      simp [insertB, insertSet_of_mem b v h]
    · simp [bucketOf, lookupB, h1] at h
      simp [insertB, h1, ih h]

theorem bucketOf_insertB_self (m : BMap) (k v : Str) :
    bucketOf (insertB m k v) k = insertSet (bucketOf m k) v := by
  simp [bucketOf, lookupB_insertB_self]

theorem bucketOf_insertB_ne (m : BMap) (k v k2 : Str) (h : k2 ≠ k) :
    bucketOf (insertB m k v) k2 = bucketOf m k2 := by
  simp [bucketOf, lookupB_insertB_ne m k v k2 h]

theorem mem_bucketOf_insertB_self (m : BMap) (k v : Str) :
    v ∈ bucketOf (insertB m k v) k := by
  rw [bucketOf_insertB_self]
  exact (mem_insertSet_iff _ _ _).mpr (Or.inr rfl)

theorem mem_bucketOf_insertB_mono (m : BMap) (k v k2 y : Str)
    (h : y ∈ bucketOf m k2) : y ∈ bucketOf (insertB m k v) k2 := by
  by_cases hk : k2 = k
  · subst hk
    rw [bucketOf_insertB_self]
    exact (mem_insertSet_iff _ _ _).mpr (Or.inl h)
  · rwa [bucketOf_insertB_ne m k v k2 hk]

theorem probe_eq_bucketOf (m : BMap) (k : Str) (t : List Str → Bool)
    (h : t [] = false) : probe m k t = t (bucketOf m k) := by
  unfold probe bucketOf
  split <;> simp_all

theorem entry_probe_snd (m : BMap) (k : Str) (t : List Str → Bool) :
    (entry_probe m k t).2 = m := by
  unfold entry_probe
  split <;> rfl

theorem entry_probe_fst (m : BMap) (k : Str) (t : List Str → Bool) :
    (entry_probe m k t).1 = probe m k t := by
  unfold entry_probe probe
  split <;> simp_all

theorem replaceAll_of_not_contains (pat s : Str) (h : containsSeq pat s = false) :
    replaceAll pat s = s := by
  induction s with
  | nil => simp [replaceAll]
  | cons c t ih =>
    rw [containsSeq] at h
    simp only [Bool.or_eq_false_iff] at h
    rw [replaceAll]
    simp [h.1, ih h.2]

theorem mem_push_strict_self (r : Ruler) (x : Str) :
    x ∈ bucketOf (push_strict r x).strict (search_keys (reduce x)).1 := by
  simp only [push_strict]
  exact mem_bucketOf_insertB_self _ _ _

theorem mem_push_strict_mono (r : Ruler) (x k y : Str)
    (h : y ∈ bucketOf r.strict k) : y ∈ bucketOf (push_strict r x).strict k := by
  simp only [push_strict]
  exact mem_bucketOf_insertB_mono _ _ _ _ _ h

theorem push_strict_of_mem (r : Ruler) (x : Str)
    (h : x ∈ bucketOf r.strict (search_keys (reduce x)).1) :
    push_strict r x = r := by
  simp only [push_strict]
  rw [insertB_of_mem _ _ _ h]

theorem mem_push_present_self (r : Ruler) (x : Str) :
    x ∈ bucketOf (push_present r x).present (search_keys (reduce x)).1 := by
  simp only [push_present]
  exact mem_bucketOf_insertB_self _ _ _

theorem mem_push_present_mono (r : Ruler) (x k y : Str)
    (h : y ∈ bucketOf r.present k) : y ∈ bucketOf (push_present r x).present k := by
  simp only [push_present]
  exact mem_bucketOf_insertB_mono _ _ _ _ _ h

theorem push_present_of_mem (r : Ruler) (x : Str)
    (h : x ∈ bucketOf r.present (search_keys (reduce x)).1) :
    push_present r x = r := by
  simp only [push_present]
  rw [insertB_of_mem _ _ _ h]

theorem mem_push_ends_self (r : Ruler) (x : Str) :
    x ∈ bucketOf (push_ends r x).ends (search_keys (reduce x)).2 := by
  simp only [push_ends]
  exact mem_bucketOf_insertB_self _ _ _

theorem mem_push_ends_mono (r : Ruler) (x k y : Str)
    (h : y ∈ bucketOf r.ends k) : y ∈ bucketOf (push_ends r x).ends k := by
  simp only [push_ends]
  exact mem_bucketOf_insertB_mono _ _ _ _ _ h

theorem push_ends_of_mem (r : Ruler) (x : Str)
    (h : x ∈ bucketOf r.ends (search_keys (reduce x)).2) :
    push_ends r x = r := by
  simp only [push_ends]
  rw [insertB_of_mem _ _ _ h]

theorem parse_guard (E : Env) (r : Ruler) (line : Str)
    (h : line = [] ∨ line.head? = some '#') : parse E r line = r := by
  simp [parse, h]

theorem parse_all_case (E : Env) (r : Ruler) (line : Str)
    (h0 : ¬(line = [] ∨ line.head? = some '#'))
    (h1 : is_all_line line = true) :
    parse E r line = parse_all_body r line := by
  simp [parse, h0, parse_all, h1]

theorem parse_reg_case (E : Env) (r : Ruler) (line : Str)
    (h0 : ¬(line = [] ∨ line.head? = some '#'))
    (h1 : is_all_line line = false) (h2 : is_reg_line line = true) :
    parse E r line = push_regex r (trim (line.drop 4)) := by
  simp [parse, h0, parse_all, h1, parse_regex, h2]

theorem parse_rzd_case (E : Env) (r : Ruler) (line : Str)
    (h0 : ¬(line = [] ∨ line.head? = some '#'))
    (h1 : is_all_line line = false) (h2 : is_reg_line line = false)
    (h3 : is_rzd_line line = true) :
    parse E r line = rzd_body E r (rzd_record r.handle_complement line) := by
  simp [parse, h0, parse_all, h1, parse_regex, h2, parse_root_zone_db, h3]

theorem parse_plain_case (E : Env) (r : Ruler) (line : Str)
    (h0 : ¬(line = [] ∨ line.head? = some '#'))
    (h1 : is_all_line line = false) (h2 : is_reg_line line = false)
    (h3 : is_rzd_line line = false) :
    parse E r line = parse_plain r line := by
  simp [parse, h0, parse_all, h1, parse_regex, h2, parse_root_zone_db, h3]

theorem if_bool_or (a b : Bool) : (if a = true then true else b) = (a || b) := by
  cases a <;> simp

theorem probe_contains (m : BMap) (k f : Str) :
    probe m k (fun bucket => bucket.contains f) = (bucketOf m k).contains f :=
  probe_eq_bucketOf _ _ _ rfl

theorem probe_ends (m : BMap) (k f : Str) :
    probe m k (ends_test f) = ends_test f (bucketOf m k) :=
  probe_eq_bucketOf _ _ _ rfl

/-- The four probes of `is_whitelisted`, written as a disjunction over the
buckets read as possibly-empty sets: the `strict` and `present` steps test
membership of the unreduced netloc in the bucket selected by the
first-4-characters key of the reduced netloc. -/
theorem wl_eq (E : Env) (r : Ruler) (line : Str)
    (h0 : line ≠ []) (h1 : line.head? ≠ some '#') :
    is_whitelisted E r line =
      ((bucketOf r.strict (search_keys (reduce (extract_netloc E line))).1).contains
          (extract_netloc E line) ||
        ((bucketOf r.present (search_keys (reduce (extract_netloc E line))).1).contains
          (extract_netloc E line) ||
          (ends_test (extract_netloc E line)
            (bucketOf r.ends (search_keys (reduce (extract_netloc E line))).2) ||
            (decide (r.regex ≠ []) && E.rmatch r.compiledRegex (extract_netloc E line))))) := by
  unfold is_whitelisted
  rw [if_neg (by simp [h0, h1])]
  simp only [probe_contains, probe_ends, if_bool_or]

theorem bucketOf_nil (k : Str) : bucketOf [] k = [] := rfl

theorem ends_test_nil (f : Str) : ends_test f [] = false := rfl

theorem contains_eq_decide_mem (l : List Str) (a : Str) :
    l.contains a = decide (a ∈ l) := by
  simp [List.elem_eq_mem, List.contains]

theorem www_append_inj (a b : Str) :
    str ("www.") ++ a = str ("www.") ++ b ↔ a = b := by
  simp [str_www_cons]

/-- The record inserted by `parse_plain` when the complement flag is set. -/
def plain_record (l : Str) : Str :=
  if (str ("www.")).isPrefixOf l then trim (l.drop 4) else l

/-- A rule line that dispatches to `parse_plain` (non-empty, not a comment,
no classifier prefix) and whose complement record does not itself start with
`www.`. -/
def plain_safe (l : Str) : Bool :=
  decide (l ≠ []) && decide (l.head? ≠ some '#') &&
  !is_all_line l && !is_reg_line l && !is_rzd_line l &&
  !(str ("www.")).isPrefixOf (plain_record l)

/-- Every `strict` bucket holds a record iff it holds its `www.` complement
(for records not themselves `www.`-prefixed). -/
def strict_paired (m : BMap) : Prop :=
  ∀ k X, (str ("www.")).isPrefixOf X = false →
    (X ∈ bucketOf m k ↔ (str ("www.") ++ X) ∈ bucketOf m k)

/-- Invariant of a complement-flag Ruler built from plain `Exact` lines
only: the other indices are untouched and `strict` is complement-paired. -/
def plainInv (r : Ruler) : Prop :=
  r.handle_complement = true ∧ r.ends = [] ∧ r.present = [] ∧ r.regex = [] ∧
  strict_paired r.strict

theorem parse_plain_hc (r : Ruler) (l : Str) (hhc : r.handle_complement = true) :
    parse_plain r l =
      push_strict (push_strict r (plain_record l))
        (str ("www.") ++ plain_record l) := by
  unfold parse_plain
  rw [hhc]
  simp [plain_record]

theorem strict_paired_insert2 (m : BMap) (rec : Str) (k0 : Str)
    (hw : (str ("www.")).isPrefixOf rec = false)
    (hpair : strict_paired m) :
    strict_paired (insertB (insertB m k0 rec) k0 (str ("www.") ++ rec)) := by
  intro k X hX
  by_cases hk : k = k0
  · subst hk
    rw [bucketOf_insertB_self, bucketOf_insertB_self]
    have h1 : X ≠ str ("www.") ++ rec := by
      intro he
      rw [he, www_prefix_append] at hX
      cases hX
    have h2 : str ("www.") ++ X ≠ rec := by
      intro he
      rw [← he, www_prefix_append] at hw
      cases hw
    have h3 := www_append_inj X rec
    have h4 := hpair k X hX
    simp only [mem_insertSet_iff]
    tauto
  · rw [bucketOf_insertB_ne _ _ _ _ hk, bucketOf_insertB_ne _ _ _ _ hk]
    exact hpair k X hX

theorem plainInv_parse (E : Env) (r : Ruler) (l : Str)
    (hinv : plainInv r) (hsafe : plain_safe l = true) :
    plainInv (parse E r l) := by
  obtain ⟨hhc, hends, hpres, hreg, hpair⟩ := hinv
  simp only [plain_safe, Bool.and_eq_true, Bool.not_eq_true', decide_eq_true_eq]
    at hsafe
  obtain ⟨⟨⟨⟨⟨h1, h2⟩, h3⟩, h4⟩, h5⟩, h6⟩ := hsafe
  rw [parse_plain_case E r l (by tauto) h3 h4 h5, parse_plain_hc r l hhc]
  have hk1 : reduce (plain_record l) = plain_record l := reduce_not_www _ h6
  refine ⟨by simp [push_strict, hhc], by simp [push_strict, hends],
    by simp [push_strict, hpres], by simp [push_strict, hreg], ?_⟩
  simp only [push_strict, hk1, reduce_www]
  exact strict_paired_insert2 r.strict (plain_record l) _ h6 hpair

theorem plainInv_new : plainInv (Ruler.new true) := by
  refine ⟨rfl, rfl, rfl, rfl, ?_⟩
  intro k X hX
  simp [Ruler.new, bucketOf, lookupB]

theorem plainInv_parse_vec (E : Env) (lines : List Str) (r : Ruler)
    (hinv : plainInv r) (hsafe : ∀ l ∈ lines, plain_safe l = true) :
    plainInv (parse_vec E r lines) := by
  induction lines generalizing r with
  | nil => exact hinv
  | cons l t ih =>
    have hstep : plainInv (parse E r l) :=
      plainInv_parse E r l hinv (hsafe l (by simp))
    have htail : ∀ x ∈ t, plain_safe x = true := fun x hx => hsafe x (by simp [hx])
    exact ih (parse E r l) hstep htail

theorem wl_pair (E : Env) (r : Ruler) (X : Str)
    (hinv : plainInv r)
    (hX0 : X ≠ []) (hX1 : X.head? ≠ some '#')
    (hXw : (str ("www.")).isPrefixOf X = false)
    (hn1 : extract_netloc E X = X)
    (hn2 : extract_netloc E (str ("www.") ++ X) = str ("www.") ++ X) :
    is_whitelisted E r (str ("www.") ++ X) = is_whitelisted E r X := by
  obtain ⟨hhc, hends, hpres, hreg, hpair⟩ := hinv
  rw [wl_eq E r (str ("www.") ++ X) (by simp [str_www_cons]) (by simp [str_www_cons]),
    wl_eq E r X hX0 hX1, hn1, hn2, reduce_www, reduce_not_www X hXw,
    hends, hpres, hreg]
  simp only [bucketOf_nil, ends_test_nil, List.contains_nil, ne_eq,
    not_true_eq_false, decide_False, Bool.false_and, Bool.or_false, Bool.false_or]
  rw [contains_eq_decide_mem, contains_eq_decide_mem]
  exact decide_eq_decide.mpr (hpair _ X hXw).symm

theorem push_ends_strict (r : Ruler) (x : Str) : (push_ends r x).strict = r.strict := rfl

theorem push_strict_hc (r : Ruler) (x : Str) :
    (push_strict r x).handle_complement = r.handle_complement := rfl

theorem push_ends_hc (r : Ruler) (x : Str) :
    (push_ends r x).handle_complement = r.handle_complement := rfl

theorem parse_all_body_eq (r : Ruler) (line : Str) :
    parse_all_body r line =
      parse_all_dotted r
        (if (trim (line.drop 4)).head? = some '.' then trim (line.drop 4)
         else trim ('.' :: trim (line.drop 4))) := by
  unfold parse_all_body
  split <;> simp_all

theorem parse_all_dotted_hc (r : Ruler) (d : Str) :
    (parse_all_dotted r d).handle_complement = r.handle_complement := by
  unfold parse_all_dotted
  split
  · split <;> rfl
  · rfl

theorem parse_all_dotted_of_mem (s : Ruler) (d : Str)
    (hm3 : d ∈ bucketOf s.ends (search_keys (reduce d)).2)
    (hm1 : d.count '.' > 1 → s.handle_complement = true →
      (str ("www.") ++ d.drop 1) ∈
        bucketOf s.strict (search_keys (reduce (str ("www.") ++ d.drop 1))).1)
    (hm2 : d.count '.' > 1 →
      (d.drop 1) ∈ bucketOf s.strict (search_keys (reduce (d.drop 1))).1) :
    parse_all_dotted s d = s := by
  unfold parse_all_dotted
  by_cases hcnt : d.count '.' > 1
  · rw [if_pos hcnt]
    by_cases hhc : s.handle_complement = true
    · rw [if_pos hhc, push_strict_of_mem _ _ (hm1 hcnt hhc),
        push_strict_of_mem _ _ (hm2 hcnt), push_ends_of_mem _ _ hm3]
    · rw [if_neg hhc, push_strict_of_mem _ _ (hm2 hcnt), push_ends_of_mem _ _ hm3]
  · rw [if_neg hcnt, push_ends_of_mem _ _ hm3]

theorem parse_all_dotted_idem (r : Ruler) (d : Str) :
    parse_all_dotted (parse_all_dotted r d) d = parse_all_dotted r d := by
  apply parse_all_dotted_of_mem
  · unfold parse_all_dotted
    exact mem_push_ends_self _ _
  · intro hcnt hhc
    rw [parse_all_dotted_hc] at hhc
    have e1 : parse_all_dotted r d =
        push_ends (push_strict (push_strict r (str ("www.") ++ d.drop 1))
          (d.drop 1)) d := by
      unfold parse_all_dotted
      rw [if_pos hcnt, if_pos hhc]
    rw [e1]
    rw [show (push_ends (push_strict (push_strict r (str ("www.") ++ d.drop 1))
        (d.drop 1)) d).strict =
      (push_strict (push_strict r (str ("www.") ++ d.drop 1)) (d.drop 1)).strict
      from rfl]
    exact mem_push_strict_mono _ _ _ _ (mem_push_strict_self _ _)
  · intro hcnt
    by_cases hhc : r.handle_complement = true
    · have e1 : parse_all_dotted r d =
          push_ends (push_strict (push_strict r (str ("www.") ++ d.drop 1))
            (d.drop 1)) d := by
        unfold parse_all_dotted
        rw [if_pos hcnt, if_pos hhc]
      rw [e1]
      rw [show (push_ends (push_strict (push_strict r (str ("www.") ++ d.drop 1))
          (d.drop 1)) d).strict =
        (push_strict (push_strict r (str ("www.") ++ d.drop 1)) (d.drop 1)).strict
        from rfl]
      exact mem_push_strict_self _ _
    · have e1 : parse_all_dotted r d = push_ends (push_strict r (d.drop 1)) d := by
        unfold parse_all_dotted
        rw [if_pos hcnt, if_neg hhc]
      rw [e1, push_ends_strict]
      exact mem_push_strict_self _ _

theorem parse_all_body_idem (r : Ruler) (line : Str) :
    parse_all_body (parse_all_body r line) line = parse_all_body r line := by
  rw [parse_all_body_eq, parse_all_body_eq, parse_all_dotted_idem]

theorem parse_plain_not_hc (r : Ruler) (l : Str)
    (h : ¬ r.handle_complement = true) : parse_plain r l = push_strict r l := by
  unfold parse_plain
  rw [Bool.not_eq_true] at h
  rw [h]
  simp

theorem parse_plain_idem (r : Ruler) (l : Str) :
    parse_plain (parse_plain r l) l = parse_plain r l := by
  by_cases hhc : r.handle_complement = true
  · have hhc2 : (parse_plain r l).handle_complement = true := by
      rw [parse_plain_hc r l hhc, push_strict_hc, push_strict_hc, hhc]
    rw [parse_plain_hc _ l hhc2, parse_plain_hc r l hhc]
    have m1 : plain_record l ∈ bucketOf
        (push_strict (push_strict r (plain_record l))
          (str ("www.") ++ plain_record l)).strict
        (search_keys (reduce (plain_record l))).1 :=
      mem_push_strict_mono _ _ _ _ (mem_push_strict_self r (plain_record l))
    rw [push_strict_of_mem _ _ m1]
    exact push_strict_of_mem _ _ (mem_push_strict_self _ _)
  · have hhc2 : ¬ (parse_plain r l).handle_complement = true := by
      rw [parse_plain_not_hc r l hhc, push_strict_hc]
      exact hhc
    rw [parse_plain_not_hc _ l hhc2, parse_plain_not_hc r l hhc]
    rw [push_strict_of_mem _ _ (mem_push_strict_self _ _)]

theorem is_whitelisted_congr (E : Env) (r1 r2 : Ruler)
    (hs : r2.strict = r1.strict) (hp : r2.present = r1.present)
    (he : r2.ends = r1.ends)
    (hr : ∀ f, (decide (r2.regex ≠ []) && E.rmatch r2.compiledRegex f) =
      (decide (r1.regex ≠ []) && E.rmatch r1.compiledRegex f))
    (line : Str) :
    is_whitelisted E r2 line = is_whitelisted E r1 line := by
  unfold is_whitelisted
  rw [hs, hp, he]
  simp only [hr]

theorem push_regex_twice_match (E : Env)
    (hdisj : ∀ p q s, E.rmatch (p ++ '|' :: q) s = (E.rmatch p s || E.rmatch q s))
    (r : Ruler) (p f : Str) :
    (decide ((push_regex (push_regex r p) p).regex ≠ []) &&
      E.rmatch (push_regex (push_regex r p) p).compiledRegex f) =
    (decide ((push_regex r p).regex ≠ []) &&
      E.rmatch (push_regex r p).compiledRegex f) := by
  have preg : ∀ (s : Ruler) (q : Str), (push_regex s q).regex =
      (if s.regex = [] then s.regex ++ q else s.regex ++ '|' :: q) := fun _ _ => rfl
  have pcom : ∀ (s : Ruler) (q : Str), (push_regex s q).compiledRegex =
      (if s.regex = [] then s.regex ++ q else s.regex ++ '|' :: q) := fun _ _ => rfl
  by_cases hg : r.regex = []
  · by_cases hp : p = []
    · subst hp
      simp [push_regex, hg]
    · have e1 : (push_regex r p).regex = p := by
        rw [preg, if_pos hg, hg, List.nil_append]
      have e1c : (push_regex r p).compiledRegex = p := by
        rw [pcom, if_pos hg, hg, List.nil_append]
      have e2 : (push_regex (push_regex r p) p).regex = p ++ '|' :: p := by
        rw [preg, e1, if_neg hp]
      have e2c : (push_regex (push_regex r p) p).compiledRegex = p ++ '|' :: p := by
        rw [pcom, e1, if_neg hp]
      have n2 : p ++ '|' :: p ≠ [] := by simp
      rw [e1, e1c, e2, e2c, hdisj p p f, Bool.or_self]
      simp [hp, n2]
  · have n1 : r.regex ++ '|' :: p ≠ [] := by simp
    have e1 : (push_regex r p).regex = r.regex ++ '|' :: p := by
      rw [preg, if_neg hg]
    have e1c : (push_regex r p).compiledRegex = r.regex ++ '|' :: p := by
      rw [pcom, if_neg hg]
    have e2 : (push_regex (push_regex r p) p).regex =
        (r.regex ++ '|' :: p) ++ '|' :: p := by
      rw [preg, e1, if_neg n1]
    have e2c : (push_regex (push_regex r p) p).compiledRegex =
        (r.regex ++ '|' :: p) ++ '|' :: p := by
      rw [pcom, e1, if_neg n1]
    have n2 : (r.regex ++ '|' :: p) ++ '|' :: p ≠ [] := by simp
    rw [e1, e1c, e2, e2c, hdisj (r.regex ++ '|' :: p) p f, hdisj r.regex p f]
    simp [n1, n2, Bool.or_assoc]

theorem rzd_step_hc (record : Str) (acc : Ruler) (ext : Str) :
    (rzd_step record acc ext).handle_complement = acc.handle_complement := by
  unfold rzd_step
  split <;> rfl

theorem rzd_step_ext (record : Str) (acc : Ruler) (ext : Str) :
    (rzd_step record acc ext).extensions = acc.extensions := by
  unfold rzd_step
  split <;> rfl

theorem rzd_fold_hc (record : Str) (l : List Str) (acc : Ruler) :
    (l.foldl (rzd_step record) acc).handle_complement = acc.handle_complement := by
  induction l generalizing acc with
  | nil => rfl
  | cons e t ih => rw [List.foldl_cons, ih, rzd_step_hc]

theorem rzd_fold_ext (record : Str) (l : List Str) (acc : Ruler) :
    (l.foldl (rzd_step record) acc).extensions = acc.extensions := by
  induction l generalizing acc with
  | nil => rfl
  | cons e t ih => rw [List.foldl_cons, ih, rzd_step_ext]

theorem rzd_step_mono (record : Str) (acc : Ruler) (ext k y : Str)
    (h : y ∈ bucketOf acc.present k) :
    y ∈ bucketOf (rzd_step record acc ext).present k := by
  unfold rzd_step
  split
  · exact mem_push_present_mono _ _ _ _ (mem_push_present_mono _ _ _ _ h)
  · exact mem_push_present_mono _ _ _ _ h

theorem rzd_fold_mono (record : Str) (l : List Str) (acc : Ruler) (k y : Str)
    (h : y ∈ bucketOf acc.present k) :
    y ∈ bucketOf (l.foldl (rzd_step record) acc).present k := by
  induction l generalizing acc with
  | nil => exact h
  | cons e t ih =>
    rw [List.foldl_cons]
    exact ih _ (rzd_step_mono record acc e k y h)

theorem rzd_fold_mem (record : Str) (l : List Str) (acc : Ruler) :
    ∀ ext ∈ l,
      (record ++ '.' :: ext) ∈
        bucketOf (l.foldl (rzd_step record) acc).present
          (search_keys (reduce (record ++ '.' :: ext))).1 ∧
      (acc.handle_complement = true →
        (str ("www.") ++ record ++ '.' :: ext) ∈
          bucketOf (l.foldl (rzd_step record) acc).present
            (search_keys (reduce (str ("www.") ++ record ++ '.' :: ext))).1) := by
  induction l generalizing acc with
  | nil => intro ext h; cases h
  | cons e t ih =>
    intro ext hext
    rcases List.mem_cons.mp hext with rfl | hmem
    · constructor
      · rw [List.foldl_cons]
        apply rzd_fold_mono
        unfold rzd_step
        split
        · exact mem_push_present_mono _ _ _ _ (mem_push_present_self _ _)
        · exact mem_push_present_self _ _
      · intro hhc
        rw [List.foldl_cons]
        apply rzd_fold_mono
        unfold rzd_step
        rw [if_pos hhc]
        exact mem_push_present_self _ _
    · have hres := ih (rzd_step record acc e) ext hmem
      rw [List.foldl_cons]
      refine ⟨hres.1, fun hhc => hres.2 ?_⟩
      rw [rzd_step_hc]
      exact hhc

theorem rzd_step_of_mem (record : Str) (acc : Ruler) (ext : Str)
    (h1 : (record ++ '.' :: ext) ∈
      bucketOf acc.present (search_keys (reduce (record ++ '.' :: ext))).1)
    (h2 : acc.handle_complement = true →
      (str ("www.") ++ record ++ '.' :: ext) ∈
        bucketOf acc.present
          (search_keys (reduce (str ("www.") ++ record ++ '.' :: ext))).1) :
    rzd_step record acc ext = acc := by
  unfold rzd_step
  by_cases hhc : acc.handle_complement = true
  · rw [if_pos hhc, push_present_of_mem _ _ h1, push_present_of_mem _ _ (h2 hhc)]
  · rw [if_neg hhc, push_present_of_mem _ _ h1]

theorem rzd_fold_id (record : Str) (l : List Str) (acc : Ruler)
    (h : ∀ ext ∈ l,
      (record ++ '.' :: ext) ∈
        bucketOf acc.present (search_keys (reduce (record ++ '.' :: ext))).1 ∧
      (acc.handle_complement = true →
        (str ("www.") ++ record ++ '.' :: ext) ∈
          bucketOf acc.present
            (search_keys (reduce (str ("www.") ++ record ++ '.' :: ext))).1)) :
    l.foldl (rzd_step record) acc = acc := by
  induction l with
  | nil => rfl
  | cons e t ih =>
    rw [List.foldl_cons, rzd_step_of_mem record acc e (h e (by simp)).1
      (h e (by simp)).2]
    exact ih (fun x hx => h x (by simp [hx]))

theorem ruler_set_ext_self (s : Ruler) (v : List Str) (h : s.extensions = v) :
    { s with extensions := v } = s := by
  cases s
  simp_all

theorem rzd_body_hc (E : Env) (r : Ruler) (record : Str) :
    (rzd_body E r record).handle_complement = r.handle_complement := by
  unfold rzd_body
  rw [rzd_fold_hc]
  split <;> rfl

theorem rzd_body_of_mem (E : Env) (s : Ruler) (record : Str)
    (hE : s.extensions = [] → E.exts = [])
    (h : ∀ ext ∈ s.extensions,
      (record ++ '.' :: ext) ∈
        bucketOf s.present (search_keys (reduce (record ++ '.' :: ext))).1 ∧
      (s.handle_complement = true →
        (str ("www.") ++ record ++ '.' :: ext) ∈
          bucketOf s.present
            (search_keys (reduce (str ("www.") ++ record ++ '.' :: ext))).1)) :
    rzd_body E s record = s := by
  show (if s.extensions = [] then { s with extensions := E.exts }
      else s).extensions.foldl (rzd_step record)
      (if s.extensions = [] then { s with extensions := E.exts } else s) = s
  by_cases h0 : s.extensions = []
  · rw [if_pos h0, hE h0]
    rw [show ({ s with extensions := ([] : List Str) } : Ruler).extensions = []
      from rfl]
    rw [List.foldl_nil]
    exact ruler_set_ext_self s [] h0
  · rw [if_neg h0]
    exact rzd_fold_id record s.extensions s h

theorem rzd_body_idem (E : Env) (r : Ruler) (record : Str) :
    rzd_body E (rzd_body E r record) record = rzd_body E r record := by
  have hbody : rzd_body E r record =
      (if r.extensions = [] then { r with extensions := E.exts }
        else r).extensions.foldl (rzd_step record)
        (if r.extensions = [] then { r with extensions := E.exts } else r) := rfl
  set r1 := (if r.extensions = [] then { r with extensions := E.exts } else r)
    with hr1def
  apply rzd_body_of_mem
  · intro h0
    rw [hbody, rzd_fold_ext] at h0
    by_cases hre : r.extensions = []
    · rw [hr1def, if_pos hre] at h0
      exact h0
    · rw [hr1def, if_neg hre] at h0
      exact absurd h0 hre
  · intro ext hext
    rw [hbody, rzd_fold_ext] at hext
    have hm := rzd_fold_mem record r1.extensions r1 ext hext
    rw [← hbody] at hm
    refine ⟨hm.1, fun hh => hm.2 ?_⟩
    rw [hbody, rzd_fold_hc] at hh
    exact hh

/-- C1: refuted on the code.  After `ALL .be.org` and `ALL .example.org` the
`ends` bucket keyed `org` holds both suffixes; the record `x.example.org`
ends with the member `.example.org` of that bucket (first conjunct), yet
`is_whitelisted` returns `false` (second conjunct): the source maps the
suffix test over the bucket but reads only `peek()`, so just the first
element of the bucket's (arbitrary) iteration — here `.be.org` — is ever
tested. -/
theorem C1_ends_bucket_peek_bug :
    (((lookupB (parse E0 (parse E0 (Ruler.new false) (str ("ALL .be.org")))
          (str ("ALL .example.org"))).ends (str ("org"))).getD []).any
        (fun s => s.isSuffixOf (str ("x.example.org"))) = true) ∧
    is_whitelisted E0 (parse E0 (parse E0 (Ruler.new false) (str ("ALL .be.org")))
        (str ("ALL .example.org"))) (str ("x.example.org")) = false := by
  decide

/-- C2: counterexample to the claim as stated.  With the complement flag off,
after `parse("example.org")` the reduced netloc of the record
`www.example.org` is `example.org`, which *is* a member of the `strict`
bucket keyed by its first four characters (first two conjuncts), yet
`is_whitelisted("www.example.org")` returns `false` (third conjunct): the
membership probe tests the unreduced netloc, not the reduced form. -/
theorem C2_strict_membership_counterexample :
    (search_keys (reduce (extract_netloc E0 (str ("www.example.org")))) =
      (str ("exam"), str ("org"))) ∧
    (((lookupB (parse E0 (Ruler.new false) (str ("example.org"))).strict
        (str ("exam"))).getD []).contains
      (reduce (extract_netloc E0 (str ("www.example.org")))) = true) ∧
    is_whitelisted E0 (parse E0 (Ruler.new false) (str ("example.org")))
      (str ("www.example.org")) = false := by
  decide

/-- C3: refuted on the code.  With the complement flag off,
`parse("www.example.org")` inserts `www.example.org` into `strict`, but
`unparse("www.example.org")` pulls the *reduced* record `example.org`
(`unparse_plain` reduces unconditionally, unlike `parse_plain`), so the rule
survives the round trip: the resulting Ruler still whitelists
`www.example.org` (first conjunct) while the empty Ruler does not (second
conjunct). -/
theorem C3_roundtrip_refuted :
    is_whitelisted E0 (unparse E0 (parse E0 (Ruler.new false)
        (str ("www.example.org"))) (str ("www.example.org")))
      (str ("www.example.org")) = true ∧
    is_whitelisted E0 (Ruler.new false) (str ("www.example.org")) = false := by
  decide

/-- C4: refuted on the code.  In an environment whose engine rejects the
pattern `(` (as `fancy_regex` does), appending `(` to the empty Ruler's
disjunction makes `Regex::new(&self.regex).unwrap()` panic — embedded as
`none` — instead of rolling the pattern back to the previous compilable
state `some (Ruler.new false)`: `push_regex` has no rollback branch. -/
theorem C4_push_regex_no_rollback :
    EC.compiles (str ("(")) = false ∧ EC.compiles [] = true ∧
    push_regex_checked EC (Ruler.new false) (str ("(")) = none := by
  decide

/-- C5: counterexample to the claim as stated.  `parse("REG aa")` from the
empty Ruler reaches the regex string `aa` (first conjunct); pulling the
pattern `a` — which was never pushed — must be a no-op per the claim, yet the
code clears the whole string (second conjunct): `pull_regex` branches on
`starts_with`/`ends_with`, and `aa` both starts and ends with `a`. -/
theorem C5_pull_regex_counterexample :
    (parse E0 (Ruler.new false) (str ("REG aa"))).regex = str ("aa") ∧
    (unparse E0 (parse E0 (Ruler.new false) (str ("REG aa")))
      (str ("REG a"))).regex = [] := by
  decide

/-- C6: counterexample to the claim as stated.  With the complement flag set,
after `parse("www.example.org")` the record `X = www.example.org` (non-empty,
not a comment) has `is_whitelisted("www." ++ X) = false` but
`is_whitelisted(X) = true`: `reduce` strips only a single `www.` and only for
the bucket keys, so `www.www.example.org` probes the vacant bucket `www.` and
is never treated as `X` before lookup. -/
theorem C6_complement_lookup_counterexample :
    is_whitelisted E0 (parse E0 (Ruler.new true) (str ("www.example.org")))
      (str ("www.www.example.org")) = false ∧
    is_whitelisted E0 (parse E0 (Ruler.new true) (str ("www.example.org")))
      (str ("www.example.org")) = true := by
  decide

/-- C7: counterexample to the claim as stated.  The line `All .example.org`
begins with an ASCII-case variant of `ALL `, but the classifiers test only
the exact prefixes `ALL ` and `all `, so the line falls through to
`parse_plain`: no suffix rule is created (first conjunct) and the whole line
is inserted as an `Exact` rule — the literal line is whitelisted (second
conjunct) while `a.example.org` is not (third conjunct). -/
theorem C7_mixed_case_counterexample :
    (parse E0 (Ruler.new false) (str ("All .example.org"))).ends = [] ∧
    is_whitelisted E0 (parse E0 (Ruler.new false) (str ("All .example.org")))
      (str ("All .example.org")) = true ∧
    is_whitelisted E0 (parse E0 (Ruler.new false) (str ("All .example.org")))
      (str ("a.example.org")) = false := by
  decide

/-- C6 (amended): when the complement flag is set, a record of the form
`www.X` is treated as `X` only for the bucket-key computation, not for the
membership and regex probes; the lookup equivalence
`is_whitelisted("www." ++ X) = is_whitelisted(X)` holds on rulers built by
parsing plain `Exact` lines whose complement record is not itself
`www.`-prefixed, for records `X` that do not begin with `www.`, are non-empty
and non-comment, and whose netloc (and that of their `www.` form) is the
record itself.  (It fails in general: for records already `www.`-prefixed —
see the counterexample — and for Regex rules, whose matching uses the
unreduced netloc.) -/
theorem C6_amended (E : Env) (lines : List Str) (X : Str)
    (hsafe : ∀ l ∈ lines, plain_safe l = true)
    (hX0 : X ≠ []) (hX1 : X.head? ≠ some '#')
    (hXw : (str ("www.")).isPrefixOf X = false)
    (hn1 : extract_netloc E X = X)
    (hn2 : extract_netloc E (str ("www.") ++ X) = str ("www.") ++ X) :
    is_whitelisted E (parse_vec E (Ruler.new true) lines) (str ("www.") ++ X) =
      is_whitelisted E (parse_vec E (Ruler.new true) lines) X :=
  wl_pair E (parse_vec E (Ruler.new true) lines) X
    (plainInv_parse_vec E lines (Ruler.new true) plainInv_new hsafe)
    hX0 hX1 hXw hn1 hn2

/-- Witness for C6 (amended) at the single rule line `example.org` and the
record `example.org`. -/
theorem C6_amended_witness :
    (∀ l ∈ [str ("example.org")], plain_safe l = true) ∧
    (str ("example.org") ≠ []) ∧
    ((str ("example.org")).head? ≠ some '#') ∧
    ((str ("www.")).isPrefixOf (str ("example.org")) = false) ∧
    (extract_netloc E0 (str ("example.org")) = str ("example.org")) ∧
    (extract_netloc E0 (str ("www.") ++ str ("example.org")) =
      str ("www.") ++ str ("example.org")) ∧
    (is_whitelisted E0 (parse_vec E0 (Ruler.new true) [str ("example.org")])
        (str ("www.") ++ str ("example.org")) =
      is_whitelisted E0 (parse_vec E0 (Ruler.new true) [str ("example.org")])
        (str ("example.org"))) :=
  ⟨by decide, by decide, by decide, by decide, by decide, by decide,
    C6_amended E0 [str ("example.org")] (str ("example.org"))
      (by decide) (by decide) (by decide) (by decide) (by decide) (by decide)⟩

/-- C8: confirmed.  For every regex engine in which the `|`-disjunction of
two patterns matches exactly what either pattern matches (the semantics the
spec assigns to the regex string), every Ruler state, every rule line `R`
and every query line, parsing `R` twice yields a Ruler with the same
`is_whitelisted` behaviour as parsing it once.  For `ALL `, `RZD ` and plain
rules the two states are identical (set-level idempotence of the pushes);
for `REG ` rules the disjunction string grows to `p|p` but its matching
behaviour is unchanged. -/
theorem C8_parse_idempotent (E : Env)
    (hdisj : ∀ p q s, E.rmatch (p ++ '|' :: q) s = (E.rmatch p s || E.rmatch q s))
    (r : Ruler) (R line : Str) :
    is_whitelisted E (parse E (parse E r R) R) line =
      is_whitelisted E (parse E r R) line := by
  by_cases hg : R = [] ∨ R.head? = some '#'
  · rw [parse_guard E (parse E r R) R hg]
  · cases hA : is_all_line R with
    | true =>
      rw [parse_all_case E r R hg hA, parse_all_case E _ R hg hA,
        parse_all_body_idem]
    | false =>
      cases hR : is_reg_line R with
      | true =>
        rw [parse_reg_case E r R hg hA hR, parse_reg_case E _ R hg hA hR]
        exact is_whitelisted_congr E (push_regex r (trim (R.drop 4)))
          (push_regex (push_regex r (trim (R.drop 4))) (trim (R.drop 4)))
          rfl rfl rfl (push_regex_twice_match E hdisj r (trim (R.drop 4))) line
      | false =>
        cases hZ : is_rzd_line R with
        | true =>
          rw [parse_rzd_case E r R hg hA hR hZ,
            parse_rzd_case E _ R hg hA hR hZ, rzd_body_hc, rzd_body_idem]
        | false =>
          rw [parse_plain_case E r R hg hA hR hZ,
            parse_plain_case E _ R hg hA hR hZ, parse_plain_idem]

/-- Witness for C8 at the rule `REG a` and the query `a`, under the concrete
engine of `E0` (which satisfies the disjunction hypothesis). -/
theorem C8_parse_idempotent_witness :
    (∀ p q s, E0.rmatch (p ++ '|' :: q) s = (E0.rmatch p s || E0.rmatch q s)) ∧
    is_whitelisted E0 (parse E0 (parse E0 (Ruler.new false) (str ("REG a")))
        (str ("REG a"))) (str ("a")) =
      is_whitelisted E0 (parse E0 (Ruler.new false) (str ("REG a"))) (str ("a")) :=
  ⟨fun _ _ _ => rfl,
    C8_parse_idempotent E0 (fun _ _ _ => rfl) (Ruler.new false)
      (str ("REG a")) (str ("a"))⟩

/-- C9: confirmed.  On a Ruler created with the complement flag set, after
`parse("example.org")` both `is_whitelisted("example.org")` and
`is_whitelisted("www.example.org")` return `true`, and the same two queries
return `true` after `parse("www.example.org")` instead. -/
theorem C9_complement_symmetry :
    is_whitelisted E0 (parse E0 (Ruler.new true) (str ("example.org")))
      (str ("example.org")) = true ∧
    is_whitelisted E0 (parse E0 (Ruler.new true) (str ("example.org")))
      (str ("www.example.org")) = true ∧
    is_whitelisted E0 (parse E0 (Ruler.new true) (str ("www.example.org")))
      (str ("example.org")) = true ∧
    is_whitelisted E0 (parse E0 (Ruler.new true) (str ("www.example.org")))
      (str ("www.example.org")) = true := by
  decide

/-- C2 (amended): the exact and expansion membership tests are performed on
the *unreduced* netloc while only the bucket keys are computed on the reduced
form: for every environment, Ruler and non-empty, non-comment line, with
`fline = netloc(line)` and `k4`/`k3` the keys of `reduce(fline)`,
`is_whitelisted` returns the disjunction of `fline ∈ strict[k4]`,
`fline ∈ present[k4]`, the peeked suffix test on `ends[k3]`, and the regex
step on `fline`. -/
theorem C2_amended (E : Env) (r : Ruler) (line : Str)
    (h0 : line ≠ []) (h1 : line.head? ≠ some '#') :
    is_whitelisted E r line =
      ((bucketOf r.strict (search_keys (reduce (extract_netloc E line))).1).contains
          (extract_netloc E line) ||
        ((bucketOf r.present (search_keys (reduce (extract_netloc E line))).1).contains
          (extract_netloc E line) ||
          (ends_test (extract_netloc E line)
            (bucketOf r.ends (search_keys (reduce (extract_netloc E line))).2) ||
            (decide (r.regex ≠ []) && E.rmatch r.compiledRegex (extract_netloc E line))))) :=
  wl_eq E r line h0 h1

/-- Witness for C2 (amended) at the rule `example.org` and the record
`www.example.org`. -/
theorem C2_amended_witness :
    (str ("www.example.org") ≠ []) ∧
    ((str ("www.example.org")).head? ≠ some '#') ∧
    (is_whitelisted E0 (parse E0 (Ruler.new false) (str ("example.org")))
        (str ("www.example.org")) =
      ((bucketOf (parse E0 (Ruler.new false) (str ("example.org"))).strict
          (search_keys (reduce (extract_netloc E0 (str ("www.example.org"))))).1).contains
          (extract_netloc E0 (str ("www.example.org"))) ||
        ((bucketOf (parse E0 (Ruler.new false) (str ("example.org"))).present
          (search_keys (reduce (extract_netloc E0 (str ("www.example.org"))))).1).contains
          (extract_netloc E0 (str ("www.example.org"))) ||
          (ends_test (extract_netloc E0 (str ("www.example.org")))
            (bucketOf (parse E0 (Ruler.new false) (str ("example.org"))).ends
              (search_keys (reduce (extract_netloc E0 (str ("www.example.org"))))).2) ||
            (decide ((parse E0 (Ruler.new false) (str ("example.org"))).regex ≠ []) &&
              E0.rmatch (parse E0 (Ruler.new false) (str ("example.org"))).compiledRegex
                (extract_netloc E0 (str ("www.example.org")))))))) :=
  ⟨by decide, by decide,
    C2_amended E0 (parse E0 (Ruler.new false) (str ("example.org")))
      (str ("www.example.org")) (by decide) (by decide)⟩

/-- C5 (amended): `pull_regex` may remove more than the first occurrence — it
clears the whole string when the pattern is both a prefix and a suffix of it,
else removes every occurrence of `p ++ "|"` when the pattern is a prefix, and
every occurrence of `"|" ++ p` otherwise.  Pulling a pattern that is not a
prefix of the disjunction and never occurs preceded by `|` leaves the regex
string and the compiled regex unchanged (on any in-sync Ruler). -/
theorem C5_amended (r : Ruler) (p : Str)
    (hsync : r.compiledRegex = r.regex)
    (h1 : p.isPrefixOf r.regex = false)
    (h2 : containsSeq ('|' :: p) r.regex = false) :
    pull_regex r p = r := by
  obtain ⟨st, en, pr, rg, cr, hc, ex⟩ := r
  simp only at hsync h1 h2
  subst hsync
  unfold pull_regex
  rw [if_neg (by simp [h1]), if_neg (by simp [h1]),
    replaceAll_of_not_contains _ _ h2]

/-- Witness for C5 (amended): pulling the never-pushed pattern `zz` from the
Ruler holding the single pattern `ab` is a no-op. -/
theorem C5_amended_witness :
    ((parse E0 (Ruler.new false) (str ("REG ab"))).compiledRegex =
      (parse E0 (Ruler.new false) (str ("REG ab"))).regex) ∧
    ((str ("zz")).isPrefixOf (parse E0 (Ruler.new false) (str ("REG ab"))).regex
      = false) ∧
    (containsSeq ('|' :: str ("zz"))
      (parse E0 (Ruler.new false) (str ("REG ab"))).regex = false) ∧
    pull_regex (parse E0 (Ruler.new false) (str ("REG ab"))) (str ("zz")) =
      parse E0 (Ruler.new false) (str ("REG ab")) :=
  ⟨by decide, by decide, by decide,
    C5_amended (parse E0 (Ruler.new false) (str ("REG ab"))) (str ("zz"))
      (by decide) (by decide) (by decide)⟩

/-- C7 (amended): rule-line classification recognizes exactly the
all-uppercase and all-lowercase prefixes `ALL `/`all `, `REG `/`reg `,
`RZD `/`rzd ` (first six conjuncts, with the remainder arbitrary); any
mixed-case variant such as `All `, `Reg ` or `RzD ` falls through every
classifier and is treated as a plain `Exact` rule (last three conjuncts). -/
theorem C7_amended (E : Env) (r : Ruler) (rest : Str) :
    (parse_all r (str ("ALL ") ++ rest)).isSome = true ∧
    (parse_all r (str ("all ") ++ rest)).isSome = true ∧
    (parse_regex r (str ("REG ") ++ rest)).isSome = true ∧
    (parse_regex r (str ("reg ") ++ rest)).isSome = true ∧
    (parse_root_zone_db E r (str ("RZD ") ++ rest)).isSome = true ∧
    (parse_root_zone_db E r (str ("rzd ") ++ rest)).isSome = true ∧
    parse E r (str ("All ") ++ rest) = parse_plain r (str ("All ") ++ rest) ∧
    parse E r (str ("Reg ") ++ rest) = parse_plain r (str ("Reg ") ++ rest) ∧
    parse E r (str ("RzD ") ++ rest) = parse_plain r (str ("RzD ") ++ rest) := by
  refine ⟨?_, ?_, ?_, ?_, ?_, ?_, ?_, ?_, ?_⟩
  · simp [parse_all, is_all_line, str, List.isPrefixOf]
  · simp [parse_all, is_all_line, str, List.isPrefixOf]
  · simp [parse_regex, is_reg_line, str, List.isPrefixOf]
  · simp [parse_regex, is_reg_line, str, List.isPrefixOf]
  · simp [parse_root_zone_db, is_rzd_line, str, List.isPrefixOf]
  · simp [parse_root_zone_db, is_rzd_line, str, List.isPrefixOf]
  · exact parse_plain_case _ _ _ (by simp [str])
      (by simp [is_all_line, str, List.isPrefixOf])
      (by simp [is_reg_line, str, List.isPrefixOf])
      (by simp [is_rzd_line, str, List.isPrefixOf])
  · exact parse_plain_case _ _ _ (by simp [str])
      (by simp [is_all_line, str, List.isPrefixOf])
      (by simp [is_reg_line, str, List.isPrefixOf])
      (by simp [is_rzd_line, str, List.isPrefixOf])
  · exact parse_plain_case _ _ _ (by simp [str])
      (by simp [is_all_line, str, List.isPrefixOf])
      (by simp [is_reg_line, str, List.isPrefixOf])
      (by simp [is_rzd_line, str, List.isPrefixOf])

/-- C10: confirmed.  A call to `is_whitelisted` leaves the Ruler unchanged —
the state threaded through the `entry`-based probes comes out identical to
the input (first conjunct), and the returned decision agrees with the pure
reading of the query (second conjunct). -/
theorem C10_query_pure (E : Env) (r : Ruler) (line : Str) :
    (is_whitelisted_st E r line).2 = r ∧
    (is_whitelisted_st E r line).1 = is_whitelisted E r line := by
  unfold is_whitelisted_st is_whitelisted
  split
  · exact ⟨rfl, rfl⟩
  · simp only [entry_probe_snd, entry_probe_fst]
    constructor
    · split
      · rfl
      · split
        · rfl
        · split <;> rfl
    · split
      · rfl
      · split
        · rfl
        · split <;> rfl

end Tivilsta

